import Mathlib

/-
  Verification development for the MiniProj motion-execution subsystem.

  Shallow embedding of:
  - the PIO time-model helpers (src/pico/servoSys/pulse_mode/pio/pio_exec.cpp
    and the older revision in src/unnamed/part_000),
  - the PWM backend (src/pico/servoSys/pulse_mode/drivers/pwm_motor.cpp),
  - the PS100_P motor arbiter (src/pico/servoSys/pulse_mode/drivers/pwm_motor.hpp,
    second concatenated unit, and the class header in src/unnamed/part_005),
  - the Arduino serial frame decoder and DM542 driver
    (src/arduino/SerialMotor/serialMotor_pmw.ino and serialMotor.ino),
  - the S-curve emitter ce_config_to_pio (src/unnamed/part_003).

  C double arithmetic is embedded over the rationals.  All concrete inputs
  used in counterexamples and evaluations are chosen so that the C float or
  double computation is exact, hence agrees with the rational model.
-/

namespace PioExec

/-- The C llround function restricted to the values this code produces:
rounding half away from zero. -/
def llround (q : ℚ) : ℤ :=
  if 0 ≤ q then ⌊q + 1 / 2⌋ else ⌈q - 1 / 2⌉

/-- Embedding of hz_to_duty_period from
src/pico/servoSys/pulse_mode/pio/pio_exec.cpp (lines 152 to 162).
The system clock clock_get_hz(clk_sys) is passed as the parameter f_sys.
Note the source computes (f_sys / hz - 6.0) * 0.5 although the comment
directly above it, and the file banner, state the subtracted constant is 7. -/
def hz_to_duty_period (f_sys hz : ℚ) : ℕ :=
  if hz ≤ 0 then 0
  else
    let d : ℚ := (f_sys / hz - 6) / 2
    if d < 1 then 1 else (llround d).toNat

/-- Embedding of hz_to_duty_period from the older revision in
src/unnamed/part_000 (lines 49 to 60), which subtracts 3 and guards
only d less or equal 0 before rounding. -/
def hz_to_duty_period_v0 (f_sys hz : ℚ) : ℕ :=
  if hz ≤ 0 then 0
  else
    let d : ℚ := (f_sys / hz - 3) / 2
    if d ≤ 0 then 1 else (llround d).toNat

/-- The conversion exactly as the specification words it (section 4.1):
round((f_sys/hz - K) / 2), clamped to at least 1, returning 0 iff hz is
not positive.  Used only to compare the code against the spec formula. -/
def spec_hz_to_duty (K f_sys hz : ℚ) : ℕ :=
  if hz ≤ 0 then 0
  else max 1 (llround ((f_sys / hz - K) / 2)).toNat

/-- Embedding of duration_to_steps from pio_exec.cpp (lines 186 to 189). -/
def duration_to_steps (duration_s hz : ℚ) : ℕ :=
  if duration_s ≤ 0 ∨ hz ≤ 0 then 0
  else (llround (duration_s * hz)).toNat

/-- Embedding of motor_exec_stream_start from pio_exec.cpp (lines 86 to 133),
reduced to its return value.  wordsValid models words being a non-null
pointer; dmaFree models dma_claim_unused_channel(false) succeeding, in
which case the claimed channel number (here 0) is returned. -/
def motor_exec_stream_start (wordsValid : Bool) (count : ℕ) (dmaFree : Bool) : ℤ :=
  if ¬wordsValid ∨ count = 0 then -1
  else if ¬dmaFree then -1
  else 0

end PioExec

/-- Claim C5.  Stated property: hz_to_duty_period(hz) returns 0 iff hz is
not positive, and for positive hz equals round((f_sys/hz - K)/2) clamped to
at least 1, with K = 7 in the pico revision and K = 3 in the other revision.
The code diverges from this on both revisions: the pico revision subtracts
6 where its own comments document 7 (at f_sys = 125 MHz and hz = 5 MHz the
code yields 10 while the documented K = 7 formula yields 9), and the other
revision guards only d at most 0, so for 0 < d < 1/2 (here f_sys/hz = 15/4)
it rounds down to 0 and returns 0 for a positive hz, violating both the
clamp and the zero-iff-nonpositive-hz property. -/
theorem C5_hz_to_duty_period_deviates :
    PioExec.hz_to_duty_period 125000000 5000000 = 10
    ∧ PioExec.spec_hz_to_duty 7 125000000 5000000 = 9
    ∧ PioExec.hz_to_duty_period_v0 15 4 = 0
    ∧ PioExec.spec_hz_to_duty 3 15 4 = 1 := by
  refine ⟨?_, ?_, ?_, ?_⟩
  · norm_num [PioExec.hz_to_duty_period, PioExec.llround]; rfl
  · norm_num [PioExec.spec_hz_to_duty, PioExec.llround]; rfl
  · norm_num [PioExec.hz_to_duty_period_v0, PioExec.llround]
  · norm_num [PioExec.spec_hz_to_duty, PioExec.llround]

namespace PwmMotor

/-- Multiplexing function currently selected for a STEP pin
(gpio_set_function): SIO driven as output low, the PWM slice, or a PIO
instance. -/
inductive PinFunc
  | sioOutLow
  | pwmFunc
  | pioFunc
deriving DecidableEq

/-- State of one PWM slice and its bound STEP pin, from
src/pico/servoSys/pulse_mode/drivers/pwm_motor.cpp:
remaining is remaining_steps[slice], active is the slice bit of
active_slice_mask, enabled is the slice enable (pwm_set_enabled),
irqEnabled is the per-slice wrap IRQ enable (pwm_set_irq_enabled),
and pinFunc is the multiplexing of the bound STEP pin.
The divider, wrap and level registers set by pwm_motor_run only shape the
waveform frequency and are not part of this state. -/
structure SliceState where
  remaining : ℕ
  active : Bool
  enabled : Bool
  irqEnabled : Bool
  pinFunc : PinFunc
deriving DecidableEq

/-- Embedding of pwm_motor_run (pwm_motor.cpp lines 211 to 242) on the
slice state: after the early return on zero arguments it reconfigures the
disabled slice and leaves it with remaining_steps = steps, the slice bit
set in active_slice_mask, the IRQ enabled and the slice enabled.  It never
touches the GPIO multiplexing (the caller does). -/
def pwm_motor_run (freq_hz steps : ℕ) (s : SliceState) : SliceState :=
  if freq_hz = 0 ∨ steps = 0 then s
  else { s with remaining := steps, active := true, irqEnabled := true, enabled := true }

/-- Embedding of pwm_motor_stop (pwm_motor.cpp lines 244 to 252):
it disables the slice and its IRQ, zeroes remaining_steps and clears the
active bit.  The source contains no gpio_set_function, gpio_set_dir or
gpio_put call here, so the pin multiplexing and level are untouched. -/
def pwm_motor_stop (s : SliceState) : SliceState :=
  { s with enabled := false, irqEnabled := false, remaining := 0, active := false }

/-- One slice branch of pwm_wrap_irq_handler (pwm_motor.cpp lines 25 to 46)
for a wrap interrupt of this slice.  fired models the slice bit of
pwm_get_irq_status_mask; the handler acts only when the bit is also in
active_slice_mask.  When the decrement reaches zero it disables the slice
and its IRQ and clears the active bit.  The handler has no binding from
slices back to pins, so it cannot and does not touch any GPIO. -/
def pwm_wrap_irq (fired : Bool) (s : SliceState) : SliceState :=
  if fired ∧ s.active then
    if 0 < s.remaining then
      let r := s.remaining - 1
      if r = 0 then
        { s with remaining := 0, enabled := false, irqEnabled := false, active := false }
      else { s with remaining := r }
    else s
  else s

end PwmMotor

/-- Claim C3.  Stated property: on every exit path from a PWM motion
segment the STEP pin ends forced to GPIO-output-low, both in
pwm_motor_stop and in the wrap IRQ handler when remaining_steps reaches 0.
The code performs every other listed action but contains no GPIO call on
either path: starting from a running slice whose pin is multiplexed to the
PWM function, pwm_motor_stop leaves the pin on the PWM function, and so
does the IRQ handler when it decrements the last remaining step and shuts
the slice down.  The pin is never forced to GPIO-output-low. -/
theorem C3_pwm_stop_leaves_pin_unforced :
    (PwmMotor.pwm_motor_stop ⟨5, true, true, true, PwmMotor.PinFunc.pwmFunc⟩
      = ⟨0, false, false, false, PwmMotor.PinFunc.pwmFunc⟩)
    ∧ (PwmMotor.pwm_motor_stop
        ⟨5, true, true, true, PwmMotor.PinFunc.pwmFunc⟩).pinFunc
        ≠ PwmMotor.PinFunc.sioOutLow
    ∧ (PwmMotor.pwm_wrap_irq true ⟨1, true, true, true, PwmMotor.PinFunc.pwmFunc⟩
      = ⟨0, false, false, false, PwmMotor.PinFunc.pwmFunc⟩)
    ∧ (PwmMotor.pwm_wrap_irq true
        ⟨1, true, true, true, PwmMotor.PinFunc.pwmFunc⟩).pinFunc
        ≠ PwmMotor.PinFunc.sioOutLow := by
  refine ⟨?_, ?_, ?_, ?_⟩ <;> decide

/-- Intermediate states of the wrap IRQ iteration after pwm_motor_run:
while strictly fewer than N wraps have been handled, the slice is still
enabled and counting, with remaining = N - k. -/
lemma pwm_wrap_iterate_lt (s : PwmMotor.SliceState) (N hz : ℕ)
    (hN : 1 ≤ N) (hhz : 1 ≤ hz) :
    ∀ k, k < N →
      (PwmMotor.pwm_wrap_irq true)^[k] (PwmMotor.pwm_motor_run hz N s)
        = { s with remaining := N - k, active := true,
                   irqEnabled := true, enabled := true } := by
  have hrun : PwmMotor.pwm_motor_run hz N s
      = { s with remaining := N, active := true,
                 irqEnabled := true, enabled := true } := by
    unfold PwmMotor.pwm_motor_run
    rw [if_neg]
    push_neg
    exact ⟨by omega, by omega⟩
  intro k
  induction k with
  | zero => intro _; simpa using hrun
  | succ k ih =>
    intro hk
    have hk1 : k < N := by omega
    rw [Function.iterate_succ_apply', ih hk1]
    have h2 : 2 ≤ N - k := by omega
    simp only [PwmMotor.pwm_wrap_irq]
    rw [if_pos (by simp), if_pos (by simp; omega), if_neg (by omega)]
    simp only [PwmMotor.SliceState.mk.injEq]
    refine ⟨by omega, trivial, trivial, trivial, trivial⟩

/-- Claim C4.  For every N at least 1 and hz at least 1, after
pwm_motor_run(pin, hz, N) the wrap IRQ handler decrements remaining_steps
once per wrap, the slice stays enabled and active for the first N - 1
wraps, and exactly at the N-th wrap the count reaches 0 and the handler
disables the slice and its IRQ and clears the active bit, so the slice
produces exactly N wraps, that is N pulses. -/
theorem C4_pwm_exact_step_count (s : PwmMotor.SliceState) (N hz : ℕ)
    (hN : 1 ≤ N) (hhz : 1 ≤ hz) :
    (∀ k, k < N →
      ((PwmMotor.pwm_wrap_irq true)^[k] (PwmMotor.pwm_motor_run hz N s)).enabled = true
      ∧ ((PwmMotor.pwm_wrap_irq true)^[k] (PwmMotor.pwm_motor_run hz N s)).active = true
      ∧ ((PwmMotor.pwm_wrap_irq true)^[k] (PwmMotor.pwm_motor_run hz N s)).remaining = N - k)
    ∧ ((PwmMotor.pwm_wrap_irq true)^[N] (PwmMotor.pwm_motor_run hz N s)).remaining = 0
    ∧ ((PwmMotor.pwm_wrap_irq true)^[N] (PwmMotor.pwm_motor_run hz N s)).enabled = false
    ∧ ((PwmMotor.pwm_wrap_irq true)^[N] (PwmMotor.pwm_motor_run hz N s)).irqEnabled = false
    ∧ ((PwmMotor.pwm_wrap_irq true)^[N] (PwmMotor.pwm_motor_run hz N s)).active = false := by
  have hstep := pwm_wrap_iterate_lt s N hz hN hhz
  refine ⟨fun k hk => by rw [hstep k hk]; exact ⟨rfl, rfl, rfl⟩, ?_⟩
  obtain ⟨m, rfl⟩ : ∃ m, N = m + 1 := ⟨N - 1, by omega⟩
  rw [Function.iterate_succ_apply', hstep m (by omega)]
  have hrem : m + 1 - m = 1 := by omega
  rw [hrem]
  simp [PwmMotor.pwm_wrap_irq]

/-- Witness for C4 at s with the pin on PWM, N = 3, hz = 1000. -/
theorem C4_pwm_exact_step_count_witness :
    ((PwmMotor.pwm_wrap_irq true)^[3]
      (PwmMotor.pwm_motor_run 1000 3
        ⟨0, false, false, false, PwmMotor.PinFunc.pwmFunc⟩)).remaining = 0 :=
  (C4_pwm_exact_step_count ⟨0, false, false, false, PwmMotor.PinFunc.pwmFunc⟩
    3 1000 (by decide) (by decide)).2.1

namespace PS100

/-- PS100_P::Backend (src/unnamed/part_005): the API-level backend choice. -/
inductive Backend
  | PWM
  | PIO
deriving DecidableEq

/-- PS100_P::CompletionReason: how the last command ended (COM1). -/
inductive CompletionReason
  | Completed
  | Interrupted
  | Stopped
deriving DecidableEq

/-- PS100_P::CommandState: state of the current command slot (COM2). -/
inductive CommandState
  | Empty
  | Running
deriving DecidableEq

/-- ActiveBackend from the arbiter implementation in pwm_motor.hpp
(second concatenated unit, lines 54 to 59): the per (PIO, SM) backend
tracker g_backend. -/
inductive ActiveBackend
  | NoneB
  | PWM
  | PIO_PARAM
  | PIO_STREAM
deriving DecidableEq

/-- State of one PS100_P arbiter together with the backend tracker slot of
its (PIO, SM) pair and the multiplexing of its STEP pin.  Time is the
microsecond counter, passed to every operation as now; com2tEnd is
com2_t_end_.  Hardware side effects inside the slice registers are covered
by the PwmMotor model; here the pin multiplexing records who owns the STEP
pin (select_step_as_gpio_low, select_step_for_pwm, select_step_for_pio). -/
structure State where
  com1 : CompletionReason
  com2 : CommandState
  com2tEnd : ℕ
  backend : ActiveBackend
  pin : PwmMotor.PinFunc
deriving DecidableEq

/-- time_reached on the microsecond counter. -/
def time_reached (now tEnd : ℕ) : Prop := tEnd ≤ now

instance (now tEnd : ℕ) : Decidable (time_reached now tEnd) :=
  inferInstanceAs (Decidable (tEnd ≤ now))

/-- Embedding of PS100_P::update (pwm_motor.hpp lines 218 to 230): natural
completion moves COM2 to COM1 with reason Completed once time is reached;
no hardware side effects. -/
def update (now : ℕ) (s : State) : State :=
  if s.com2 ≠ CommandState.Running then s
  else if ¬ time_reached now s.com2tEnd then s
  else { s with com1 := CompletionReason.Completed, com2 := CommandState.Empty }

/-- Embedding of PS100_P::busy (lines 236 to 239): update, then report
whether COM2 is Running. -/
def busy (now : ℕ) (s : State) : Bool :=
  decide ((update now s).com2 = CommandState.Running)

/-- Embedding of PS100_P::last_completion (lines 241 to 244): update, then
report COM1. -/
def last_completion (now : ℕ) (s : State) : CompletionReason :=
  (update now s).com1

/-- Embedding of the file-local terminate_hardware (lines 107 to 129):
dispatch on the backend tracker.  pwm_motor_stop and hard_stop_pio leave
the pin multiplexing alone (PwmMotor.pwm_motor_stop models the slice side);
only the NoneB fallback forces the STEP pin to GPIO output low.  The
tracker is cleared in every case. -/
def terminate_hardware (s : State) : State :=
  match s.backend with
  | ActiveBackend.PWM => { s with backend := ActiveBackend.NoneB }
  | ActiveBackend.PIO_PARAM => { s with backend := ActiveBackend.NoneB }
  | ActiveBackend.PIO_STREAM => { s with backend := ActiveBackend.NoneB }
  | ActiveBackend.NoneB =>
      { s with backend := ActiveBackend.NoneB, pin := PwmMotor.PinFunc.sioOutLow }

/-- Embedding of PS100_P::run_steps (lines 250 to 306).  Arbitration: run
update, interrupt a still-running command, drop zero commands as a
completed no-op with the pin forced low, otherwise hand the pin to the
chosen backend, start it, and mark COM2 Running until
now + steps * 1000000 / hz microseconds (integer division as in C). -/
def run_steps (now steps hz : ℕ) (be : Backend) (s : State) : State :=
  let s1 := update now s
  let s2 :=
    if s1.com2 = CommandState.Running then
      { terminate_hardware s1 with
          com1 := CompletionReason.Interrupted, com2 := CommandState.Empty }
    else s1
  if steps = 0 ∨ hz = 0 then
    { s2 with com1 := CompletionReason.Completed, com2 := CommandState.Empty,
              backend := ActiveBackend.NoneB, pin := PwmMotor.PinFunc.sioOutLow }
  else
    match be with
    | Backend.PWM =>
        { s2 with pin := PwmMotor.PinFunc.pwmFunc, backend := ActiveBackend.PWM,
                  com2tEnd := now + steps * 1000000 / hz,
                  com2 := CommandState.Running }
    | Backend.PIO =>
        { s2 with pin := PwmMotor.PinFunc.pioFunc, backend := ActiveBackend.PIO_PARAM,
                  com2tEnd := now + steps * 1000000 / hz,
                  com2 := CommandState.Running }

/-- Embedding of PS100_P::run_velocity (lines 308 to 328).  The zero guard
comes first: it runs update, sets COM1 to Completed, clears the tracker and
forces the pin low, but never writes COM2.  Otherwise it converts the
duration to steps (duration_ms / 1000 seconds times hz, rounded) and
delegates to run_steps. -/
def run_velocity (now hz durationMs : ℕ) (be : Backend) (s : State) : State :=
  if hz = 0 ∨ durationMs = 0 then
    let s1 := update now s
    { s1 with com1 := CompletionReason.Completed,
              backend := ActiveBackend.NoneB, pin := PwmMotor.PinFunc.sioOutLow }
  else
    let durationS : ℚ := (durationMs * 1000 : ℕ) / 1000000
    run_steps now (PioExec.duration_to_steps durationS hz) hz be s

/-- Embedding of PS100_P::run_pio_stream (lines 330 to 369).
supports_pio_stream() always returns true.  After update, a null or empty
stream or a zero estimate is dropped as a completed no-op; otherwise a
still-running command is interrupted, the pin is handed to the PIO, and
the stream is started.  The return value of motor_exec_stream_start is
discarded by the source, so the dmaFree flag does not influence the
resulting state: COM2 becomes Running until now + estimatedDurationUs. -/
def run_pio_stream (now : ℕ) (wordsValid : Bool) (count estimatedDurationUs : ℕ)
    (dmaFree : Bool) (s : State) : State :=
  let s1 := update now s
  if ¬wordsValid ∨ count = 0 ∨ estimatedDurationUs = 0 then
    { s1 with com1 := CompletionReason.Completed, com2 := CommandState.Empty,
              backend := ActiveBackend.NoneB, pin := PwmMotor.PinFunc.sioOutLow }
  else
    let s2 :=
      if s1.com2 = CommandState.Running then
        { terminate_hardware s1 with
            com1 := CompletionReason.Interrupted, com2 := CommandState.Empty }
      else s1
    let _sentinel := PioExec.motor_exec_stream_start wordsValid count dmaFree
    { s2 with pin := PwmMotor.PinFunc.pioFunc, backend := ActiveBackend.PIO_STREAM,
              com2tEnd := now + estimatedDurationUs,
              com2 := CommandState.Running }

/-- Embedding of PS100_P::stop (lines 372 to 395): update, terminate the
hardware, record Stopped only if a command was still running, empty COM2
and leave the pin at the GPIO low idle fallback. -/
def stop (now : ℕ) (s : State) : State :=
  let s1 := update now s
  if s1.com2 ≠ CommandState.Running then
    { terminate_hardware s1 with
        com2 := CommandState.Empty, pin := PwmMotor.PinFunc.sioOutLow }
  else
    { terminate_hardware s1 with
        com1 := CompletionReason.Stopped, com2 := CommandState.Empty,
        pin := PwmMotor.PinFunc.sioOutLow }

end PS100

/-- Claim C1.  Arbitration transitions of PS100_P.  Issuing run_steps or
run_pio_stream while the current command is Running and unexpired installs
the new command with COM1 = Interrupted, so last_completion() reads
Interrupted; letting a running command reach its t_end makes busy() false
and last_completion() = Completed; calling stop() on a Running unexpired
command yields Stopped with COM2 emptied.  The bound hz at most
1000000 * steps keeps the installed duration of the new command nonzero so
that reading last_completion immediately afterwards does not itself expire
the new command. -/
theorem C1_arbitration_transitions (s : PS100.State)
    (now steps hz count est : ℕ) (be : PS100.Backend) (dmaFree : Bool) :
    (s.com2 = PS100.CommandState.Running → ¬ (s.com2tEnd ≤ now) →
      steps ≠ 0 → hz ≠ 0 → hz ≤ 1000000 * steps →
      PS100.last_completion now (PS100.run_steps now steps hz be s)
        = PS100.CompletionReason.Interrupted
      ∧ (PS100.run_steps now steps hz be s).com2 = PS100.CommandState.Running)
    ∧ (s.com2 = PS100.CommandState.Running → ¬ (s.com2tEnd ≤ now) →
      count ≠ 0 → est ≠ 0 →
      PS100.last_completion now (PS100.run_pio_stream now true count est dmaFree s)
        = PS100.CompletionReason.Interrupted
      ∧ (PS100.run_pio_stream now true count est dmaFree s).com2
        = PS100.CommandState.Running)
    ∧ (s.com2 = PS100.CommandState.Running → s.com2tEnd ≤ now →
      PS100.busy now s = false
      ∧ PS100.last_completion now s = PS100.CompletionReason.Completed)
    ∧ (s.com2 = PS100.CommandState.Running → ¬ (s.com2tEnd ≤ now) →
      (PS100.stop now s).com1 = PS100.CompletionReason.Stopped
      ∧ (PS100.stop now s).com2 = PS100.CommandState.Empty) := by
  refine ⟨?_, ?_, ?_, ?_⟩
  · intro h2 ht hs hh hle
    have ht2 : now < s.com2tEnd := by omega
    have hd : steps * 1000000 / hz ≠ 0 := by
      have h1 : hz ≤ steps * 1000000 := by nlinarith [Nat.one_le_iff_ne_zero.mpr hs]
      have := (Nat.one_le_div_iff (Nat.pos_of_ne_zero hh)).mpr h1
      omega
    cases hb : s.backend <;>
      cases be <;>
        simp [PS100.run_steps, h2, hs, hh, PS100.terminate_hardware, hb, ht2, hd,
          PS100.last_completion, PS100.update, PS100.time_reached]
  · intro h2 ht hc he
    have ht2 : now < s.com2tEnd := by omega
    cases hb : s.backend <;>
      simp [PS100.run_pio_stream, h2, hc, he, PS100.terminate_hardware, hb, ht2,
        PS100.last_completion, PS100.update, PS100.time_reached]
  · intro h2 ht
    simp [PS100.busy, PS100.last_completion, PS100.update, PS100.time_reached, h2, ht]
  · intro h2 ht
    have ht2 : now < s.com2tEnd := by omega
    cases hb : s.backend <;>
      simp [PS100.stop, h2, ht2, PS100.terminate_hardware, hb,
        PS100.update, PS100.time_reached]

/-- Witness for C1 on a concrete running command: interrupted by a new
run_steps and by a new stream, completed at expiry, stopped by stop(). -/
theorem C1_arbitration_transitions_witness :
    (PS100.last_completion 0
      (PS100.run_steps 0 10 100 PS100.Backend.PWM
        ⟨PS100.CompletionReason.Completed, PS100.CommandState.Running, 1000,
          PS100.ActiveBackend.PWM, PwmMotor.PinFunc.pwmFunc⟩)
      = PS100.CompletionReason.Interrupted)
    ∧ (PS100.last_completion 0
      (PS100.run_pio_stream 0 true 2 500 true
        ⟨PS100.CompletionReason.Completed, PS100.CommandState.Running, 1000,
          PS100.ActiveBackend.PWM, PwmMotor.PinFunc.pwmFunc⟩)
      = PS100.CompletionReason.Interrupted)
    ∧ (PS100.busy 2000
        ⟨PS100.CompletionReason.Completed, PS100.CommandState.Running, 1000,
          PS100.ActiveBackend.PWM, PwmMotor.PinFunc.pwmFunc⟩ = false)
    ∧ ((PS100.stop 0
        ⟨PS100.CompletionReason.Completed, PS100.CommandState.Running, 1000,
          PS100.ActiveBackend.PWM, PwmMotor.PinFunc.pwmFunc⟩).com1
      = PS100.CompletionReason.Stopped) := by
  have h := C1_arbitration_transitions
    ⟨PS100.CompletionReason.Completed, PS100.CommandState.Running, 1000,
      PS100.ActiveBackend.PWM, PwmMotor.PinFunc.pwmFunc⟩
    0 10 100 2 500 PS100.Backend.PWM true
  have h2 := C1_arbitration_transitions
    ⟨PS100.CompletionReason.Completed, PS100.CommandState.Running, 1000,
      PS100.ActiveBackend.PWM, PwmMotor.PinFunc.pwmFunc⟩
    2000 10 100 2 500 PS100.Backend.PWM true
  refine ⟨(h.1 rfl (by decide) (by decide) (by decide) (by decide)).1,
          (h.2.1 rfl (by decide) (by decide) (by decide)).1,
          (h2.2.2.1 rfl (by decide)).1,
          (h.2.2.2 rfl (by decide)).1⟩

/-- Counterexample to claim C2.  From an idle arbiter, run_pio_stream with
a valid non-empty stream but no free DMA channel: motor_exec_stream_start
returns the sentinel -1, yet the arbiter ignores the return value, marks
COM2 Running and busy() reports true immediately after the call, not false
with COM2 Empty and COM1 Completed as claimed. -/
theorem C2_dma_sentinel_counterexample :
    PioExec.motor_exec_stream_start true 2 false = -1
    ∧ PS100.busy 0 (PS100.run_pio_stream 0 true 2 1000 false
        ⟨PS100.CompletionReason.Completed, PS100.CommandState.Empty, 0,
          PS100.ActiveBackend.NoneB, PwmMotor.PinFunc.sioOutLow⟩) = true
    ∧ (PS100.run_pio_stream 0 true 2 1000 false
        ⟨PS100.CompletionReason.Completed, PS100.CommandState.Empty, 0,
          PS100.ActiveBackend.NoneB, PwmMotor.PinFunc.sioOutLow⟩).com2
      = PS100.CommandState.Running := by
  refine ⟨by decide, by decide, by decide⟩

/-- Claim C2 as amended.  Only the arbiter's own guard (null words, zero
count or zero estimated duration) drops a stream command as a completed
no-op with COM2 = Empty and busy() false.  For a valid non-empty stream
the arbiter discards the result of motor_exec_stream_start, so even when
no DMA channel can be claimed (sentinel -1) it marks COM2 Running and the
tracker PIO_STREAM; busy() stays true until the estimated duration
elapses. -/
theorem C2_dma_sentinel_amended (s : PS100.State) (now count est : ℕ)
    (wordsValid dmaFree : Bool) :
    ((¬wordsValid ∨ count = 0 ∨ est = 0) →
      (PS100.run_pio_stream now wordsValid count est dmaFree s).com1
        = PS100.CompletionReason.Completed
      ∧ (PS100.run_pio_stream now wordsValid count est dmaFree s).com2
        = PS100.CommandState.Empty
      ∧ PS100.busy now (PS100.run_pio_stream now wordsValid count est dmaFree s) = false)
    ∧ (wordsValid = true → count ≠ 0 → est ≠ 0 →
      (PS100.run_pio_stream now wordsValid count est dmaFree s).com2
        = PS100.CommandState.Running
      ∧ (PS100.run_pio_stream now wordsValid count est dmaFree s).backend
        = PS100.ActiveBackend.PIO_STREAM) := by
  constructor
  · intro h
    rcases h with h | h | h <;>
      simp [PS100.run_pio_stream, h, PS100.busy, PS100.update]
  · intro hw hc he
    subst hw
    by_cases hrun : (PS100.update now s).com2 = PS100.CommandState.Running <;>
      cases hb : (PS100.update now s).backend <;>
        simp [PS100.run_pio_stream, hc, he, hrun, PS100.terminate_hardware, hb]

/-- Witness for the amended C2: an empty stream is dropped as a no-op, and
a valid stream without a free DMA channel still installs as Running. -/
theorem C2_dma_sentinel_amended_witness :
    (PS100.run_pio_stream 0 true 0 1000 true
      ⟨PS100.CompletionReason.Completed, PS100.CommandState.Empty, 0,
        PS100.ActiveBackend.NoneB, PwmMotor.PinFunc.sioOutLow⟩).com2
      = PS100.CommandState.Empty
    ∧ (PS100.run_pio_stream 0 true 2 1000 false
      ⟨PS100.CompletionReason.Completed, PS100.CommandState.Empty, 0,
        PS100.ActiveBackend.NoneB, PwmMotor.PinFunc.sioOutLow⟩).com2
      = PS100.CommandState.Running := by
  refine ⟨((C2_dma_sentinel_amended
      ⟨PS100.CompletionReason.Completed, PS100.CommandState.Empty, 0,
        PS100.ActiveBackend.NoneB, PwmMotor.PinFunc.sioOutLow⟩
      0 0 1000 true true).1 (by simp)).2.1,
    ((C2_dma_sentinel_amended
      ⟨PS100.CompletionReason.Completed, PS100.CommandState.Empty, 0,
        PS100.ActiveBackend.NoneB, PwmMotor.PinFunc.sioOutLow⟩
      0 2 1000 true false).2 rfl (by decide) (by decide)).1⟩

/-- Counterexample to claim C7.  run_velocity with hz = 0 while a command
is still Running and unexpired: the zero branch of run_velocity sets COM1
to Completed, clears the tracker and forces the pin low, but never writes
COM2, so after the call COM2 is still Running, not Empty as claimed. -/
theorem C7_noop_counterexample :
    ((PS100.run_velocity 0 0 5 PS100.Backend.PWM
      ⟨PS100.CompletionReason.Completed, PS100.CommandState.Running, 1000,
        PS100.ActiveBackend.PWM, PwmMotor.PinFunc.pwmFunc⟩).com2
      = PS100.CommandState.Running)
    ∧ ((PS100.run_velocity 0 0 5 PS100.Backend.PWM
      ⟨PS100.CompletionReason.Completed, PS100.CommandState.Running, 1000,
        PS100.ActiveBackend.PWM, PwmMotor.PinFunc.pwmFunc⟩).com1
      = PS100.CompletionReason.Completed) := by
  refine ⟨by decide, by decide⟩

/-- Claim C7 as amended.  A zero entry (steps = 0 or hz = 0) through
run_steps yields COM1 = Completed, COM2 = Empty, tracker None and the STEP
pin forced to GPIO low.  A zero entry (hz = 0 or duration = 0) through
run_velocity yields COM1 = Completed, tracker None and pin low, but COM2
keeps the value it had after update(): in particular it remains Running if
a command was mid-flight and unexpired. -/
theorem C7_noop_amended (s : PS100.State) (now steps hz ms : ℕ)
    (be : PS100.Backend) :
    ((steps = 0 ∨ hz = 0) →
      (PS100.run_steps now steps hz be s).com1 = PS100.CompletionReason.Completed
      ∧ (PS100.run_steps now steps hz be s).com2 = PS100.CommandState.Empty
      ∧ (PS100.run_steps now steps hz be s).backend = PS100.ActiveBackend.NoneB
      ∧ (PS100.run_steps now steps hz be s).pin = PwmMotor.PinFunc.sioOutLow)
    ∧ ((hz = 0 ∨ ms = 0) →
      (PS100.run_velocity now hz ms be s).com1 = PS100.CompletionReason.Completed
      ∧ (PS100.run_velocity now hz ms be s).backend = PS100.ActiveBackend.NoneB
      ∧ (PS100.run_velocity now hz ms be s).pin = PwmMotor.PinFunc.sioOutLow
      ∧ (PS100.run_velocity now hz ms be s).com2 = (PS100.update now s).com2) := by
  constructor
  · intro h
    by_cases hrun : (PS100.update now s).com2 = PS100.CommandState.Running <;>
      cases hb : (PS100.update now s).backend <;>
        rcases h with h | h <;>
          simp [PS100.run_steps, h, hrun, PS100.terminate_hardware, hb]
  · intro h
    rcases h with h | h <;> simp [PS100.run_velocity, h]

/-- Witness for the amended C7 on a running, unexpired command: run_steps
with zero steps empties COM2, run_velocity with zero hz does not. -/
theorem C7_noop_amended_witness :
    ((PS100.run_steps 0 0 100 PS100.Backend.PWM
      ⟨PS100.CompletionReason.Completed, PS100.CommandState.Running, 1000,
        PS100.ActiveBackend.PWM, PwmMotor.PinFunc.pwmFunc⟩).com2
      = PS100.CommandState.Empty)
    ∧ ((PS100.run_velocity 0 0 5 PS100.Backend.PWM
      ⟨PS100.CompletionReason.Completed, PS100.CommandState.Running, 1000,
        PS100.ActiveBackend.PWM, PwmMotor.PinFunc.pwmFunc⟩).com2
      = (PS100.update 0
        ⟨PS100.CompletionReason.Completed, PS100.CommandState.Running, 1000,
          PS100.ActiveBackend.PWM, PwmMotor.PinFunc.pwmFunc⟩).com2) := by
  refine ⟨((C7_noop_amended
      ⟨PS100.CompletionReason.Completed, PS100.CommandState.Running, 1000,
        PS100.ActiveBackend.PWM, PwmMotor.PinFunc.pwmFunc⟩
      0 0 100 5 PS100.Backend.PWM).1 (Or.inl rfl)).2.1,
    ((C7_noop_amended
      ⟨PS100.CompletionReason.Completed, PS100.CommandState.Running, 1000,
        PS100.ActiveBackend.PWM, PwmMotor.PinFunc.pwmFunc⟩
      0 0 0 5 PS100.Backend.PWM).2 (Or.inl rfl)).2.2.2⟩

namespace SerialMotor

/-- Frame header bytes and frame length from the Arduino sources. -/
def FRAME_HEADER_TIME : ℕ := 0xBF

/-- The step-bounded header byte. -/
def FRAME_HEADER_PULSE : ℕ := 0xAF

/-- Fixed frame length in bytes. -/
def FRAME_LENGTH : ℕ := 11

/-- Decoder state of readSerial (serialMotor_pmw.ino lines 237 to 257 and
the second unit of serialMotor.ino, lines 325 to 345): the receiving flag
and the bytes stored so far (buffer[0 .. index-1]; index is always the
number of stored bytes, so it is represented by the list length). -/
structure DecState where
  receiving : Bool
  buf : List ℕ
deriving DecidableEq

/-- Decoder state at boot: not receiving, nothing stored. -/
def decStart : DecState := ⟨false, []⟩

/-- One byte of readSerial.  In the idle state only a header byte is
accepted (it resets the index and is stored at position 0); any other byte
is discarded.  While receiving, the byte is appended, and once 11 bytes
are stored the frame is handed to processFrame (modelled as the emitted
value) and the decoder returns to idle. -/
def stepByte (s : DecState) (b : ℕ) : DecState × Option (List ℕ) :=
  if ¬s.receiving then
    if b = FRAME_HEADER_TIME ∨ b = FRAME_HEADER_PULSE then (⟨true, [b]⟩, none)
    else (s, none)
  else
    let buf := s.buf ++ [b]
    if FRAME_LENGTH ≤ buf.length then (⟨false, buf⟩, some buf)
    else (⟨true, buf⟩, none)

/-- One readSerial call draining a chunk of available bytes, collecting
the frames handed to processFrame. -/
def feed (s : DecState) : List ℕ → DecState × List (List ℕ)
  | [] => (s, [])
  | b :: rest =>
      let p := stepByte s b
      let q := feed p.1 rest
      (q.1, p.2.toList ++ q.2)

/-- Successive readSerial calls, one per chunk of arriving bytes. -/
def feedChunks (s : DecState) : List (List ℕ) → DecState × List (List ℕ)
  | [] => (s, [])
  | c :: cs =>
      let p := feed s c
      let q := feedChunks p.1 cs
      (q.1, p.2 ++ q.2)

/-- Draining one byte list equals draining its two halves in sequence:
the decoder state persists across reads. -/
lemma feed_append (s : DecState) (a b : List ℕ) :
    feed s (a ++ b) = ((feed (feed s a).1 b).1, (feed s a).2 ++ (feed (feed s a).1 b).2) := by
  induction a generalizing s with
  | nil => simp [feed]
  | cons x xs ih =>
      simp only [List.cons_append, feed, List.append_eq, ih, List.append_assoc]

/-- Chunked feeding equals feeding the concatenation. -/
lemma feedChunks_join (s : DecState) (cs : List (List ℕ)) :
    feedChunks s cs = feed s cs.flatten := by
  induction cs generalizing s with
  | nil => simp [feedChunks, feed]
  | cons c cs ih =>
      simp only [feedChunks, List.flatten_cons, feed_append, ih]

/-- While receiving with a partial buffer, feeding exactly the missing
bytes completes the frame: exactly one frame is emitted, equal to the
accumulated bytes, and the decoder returns to idle. -/
lemma feed_completes (rest : List ℕ) :
    ∀ buf : List ℕ, buf.length + rest.length = FRAME_LENGTH → rest ≠ [] →
      feed ⟨true, buf⟩ rest = (⟨false, buf ++ rest⟩, [buf ++ rest]) := by
  induction rest with
  | nil => intro buf _ hne; exact absurd rfl hne
  | cons b rest ih =>
      intro buf hlen _
      simp only [List.length_cons] at hlen
      by_cases hr : rest = []
      · subst hr
        have h11 : FRAME_LENGTH ≤ buf.length + 1 := by
          simp only [List.length_nil] at hlen
          omega
        simp [feed, stepByte, h11]
      · have hr0 : rest.length ≠ 0 := fun h => hr (List.length_eq_zero.mp h)
        have hstep : stepByte ⟨true, buf⟩ b = (⟨true, buf ++ [b]⟩, none) := by
          simp only [stepByte, List.length_append, List.length_cons, List.length_nil]
          rw [if_neg (by simp), if_neg (by omega)]
        have hlen2 : (buf ++ [b]).length + rest.length = FRAME_LENGTH := by
          simp only [List.length_append, List.length_cons, List.length_nil]
          omega
        calc feed ⟨true, buf⟩ (b :: rest)
            = ((feed ⟨true, buf ++ [b]⟩ rest).1,
                (none : Option (List ℕ)).toList ++ (feed ⟨true, buf ++ [b]⟩ rest).2) := by
              simp only [feed, hstep]
          _ = (⟨false, buf ++ b :: rest⟩, [buf ++ b :: rest]) := by
              rw [ih (buf ++ [b]) hlen2 hr]
              simp

end SerialMotor

/-- Claim C6.  Feeding the 11 bytes of a valid frame (header 0xBF or 0xAF)
into the decoder split into arbitrary chunks across reads processes
exactly one frame, equal to the fed bytes, with the decoder back in the
idle state afterwards; partial frames are retained between reads (the
chunk boundary is invisible), and an unknown byte in the idle state is
discarded silently without emitting anything. -/
theorem C6_decoder_frame_chunking (frame : List ℕ) (chunks : List (List ℕ))
    (hlen : frame.length = SerialMotor.FRAME_LENGTH)
    (hhead : frame.head? = some SerialMotor.FRAME_HEADER_TIME
      ∨ frame.head? = some SerialMotor.FRAME_HEADER_PULSE)
    (hjoin : chunks.flatten = frame) :
    (SerialMotor.feedChunks SerialMotor.decStart chunks).2 = [frame]
    ∧ (SerialMotor.feedChunks SerialMotor.decStart chunks).1
      = ⟨false, frame⟩
    ∧ (∀ b, b ≠ SerialMotor.FRAME_HEADER_TIME →
        b ≠ SerialMotor.FRAME_HEADER_PULSE →
        SerialMotor.stepByte SerialMotor.decStart b
          = (SerialMotor.decStart, none)) := by
  obtain ⟨h, rest, rfl⟩ : ∃ h rest, frame = h :: rest := by
    cases frame with
    | nil => simp [SerialMotor.FRAME_LENGTH] at hlen
    | cons h r => exact ⟨h, r, rfl⟩
  have hh : h = SerialMotor.FRAME_HEADER_TIME
      ∨ h = SerialMotor.FRAME_HEADER_PULSE := by
    simpa using hhead
  have hstep0 : SerialMotor.stepByte SerialMotor.decStart h
      = (⟨true, [h]⟩, none) := by
    rcases hh with hh | hh <;>
      simp [SerialMotor.stepByte, SerialMotor.decStart, hh]
  have hrest : rest ≠ [] := by
    intro hr
    subst hr
    simp [SerialMotor.FRAME_LENGTH] at hlen
  have hlen1 : ([h] : List ℕ).length + rest.length = SerialMotor.FRAME_LENGTH := by
    simp only [List.length_cons] at hlen
    simp only [List.length_cons, List.length_nil]
    omega
  have hcomp := SerialMotor.feed_completes rest [h] hlen1 hrest
  have hfeed : SerialMotor.feed SerialMotor.decStart (h :: rest)
      = (⟨false, h :: rest⟩, [h :: rest]) := by
    simp only [SerialMotor.feed, hstep0, hcomp]
    simp
  rw [SerialMotor.feedChunks_join, hjoin, hfeed]
  refine ⟨rfl, rfl, ?_⟩
  intro b hb1 hb2
  simp [SerialMotor.stepByte, SerialMotor.decStart, hb1, hb2]

/-- Witness for C6: the step-bounded frame AF 01 00 20 03 00 00 C8 00 00 00
fed in four ragged chunks decodes exactly once. -/
theorem C6_decoder_frame_chunking_witness :
    (SerialMotor.feedChunks SerialMotor.decStart
      [[0xAF, 0x01], [0x00], [0x20, 0x03, 0x00, 0x00, 0xC8], [0x00, 0x00, 0x00]]).2
      = [[0xAF, 0x01, 0x00, 0x20, 0x03, 0x00, 0x00, 0xC8, 0x00, 0x00, 0x00]] :=
  (C6_decoder_frame_chunking
    [0xAF, 0x01, 0x00, 0x20, 0x03, 0x00, 0x00, 0xC8, 0x00, 0x00, 0x00]
    [[0xAF, 0x01], [0x00], [0x20, 0x03, 0x00, 0x00, 0xC8], [0x00, 0x00, 0x00]]
    (by decide) (Or.inr (by decide)) (by decide)).1

namespace SerialMotor

/-- Interpretation of a machine word as a signed 32-bit integer in two's
complement. -/
def toInt32 (n : ℕ) : ℤ :=
  if n % 4294967296 < 2147483648 then (n % 4294967296 : ℤ)
  else (n % 4294967296 : ℤ) - 4294967296

/-- The unsigned 32-bit pattern of a signed value. -/
def toUInt32 (x : ℤ) : ℕ := (x % 4294967296).toNat

/-- Two's-complement negation of an int32, as the AVR target computes
the C expression -x: the bit pattern is negated modulo 2 to the 32 and
re-read as signed.  For x = -2147483648 this returns -2147483648. -/
def negWrap32 (x : ℤ) : ℤ := toInt32 ((4294967296 - toUInt32 x) % 4294967296)

/-- The parameter defence step of processFrame
(serialMotor_pmw.ino lines 272 to 274): a negative signed field is
replaced by its (wrapping) negation. -/
def absNormalize (x : ℤ) : ℤ := if x < 0 then negWrap32 x else x

/-- Little-endian reading of an int32 field out of four frame bytes, as
memcpy into the packed CommandFrame struct produces on the AVR. -/
def readInt32LE (b0 b1 b2 b3 : ℕ) : ℤ :=
  toInt32 (b0 % 256 + 256 * (b1 % 256) + 65536 * (b2 % 256) + 16777216 * (b3 % 256))

/-- A decoded command record, the result of processFrame
(serialMotor_pmw.ino lines 263 to 295): header class, masks and the two
normalized numeric fields. -/
structure Command where
  isTimeMode : Bool
  motorMask : ℕ
  dirMask : ℕ
  speedHz : ℤ
  magnitude : ℤ
deriving DecidableEq

/-- Embedding of processFrame on an 11-byte buffer: gate on the two
headers, then take absolute values of the two little-endian int32 fields
by the negate-if-negative defence. -/
def processFrame (buf : List ℕ) : Option Command :=
  match buf with
  | [h, m, d, s0, s1, s2, s3, g0, g1, g2, g3] =>
      if h = FRAME_HEADER_TIME ∨ h = FRAME_HEADER_PULSE then
        some
          { isTimeMode := h = FRAME_HEADER_TIME
            motorMask := m
            dirMask := d
            speedHz := absNormalize (readInt32LE s0 s1 s2 s3)
            magnitude := absNormalize (readInt32LE g0 g1 g2 g3) }
      else none
  | _ => none

end SerialMotor

/-- Counterexample to claim C9.  The frame whose speed field is the byte
pattern 00 00 00 80, the int32 value -2147483648: its wrapping negation is
-2147483648 again, so the decoded speed is negative, not the absolute
value.  The claim that both decoded fields are non-negative for every
possible int32 input is false at the most negative int32. -/
theorem C9_abs_decode_counterexample :
    (SerialMotor.processFrame
        [0xAF, 0x01, 0x00, 0x00, 0x00, 0x00, 0x80, 0xC8, 0x00, 0x00, 0x00]).map
      SerialMotor.Command.speedHz = some (-2147483648)
    ∧ ¬ (0 : ℤ) ≤ -2147483648 := by
  refine ⟨by decide, by decide⟩

/-- Claim C9 as amended.  For every 11-byte frame with a valid header the
decoded speed and magnitude equal the absolute values of the corresponding
little-endian int32 fields, and are hence non-negative, for every int32
input except -2147483648; on that single value the two's-complement
negation wraps back to -2147483648, which stays negative. -/
theorem C9_abs_decode_amended (x : ℤ)
    (hlo : -2147483648 ≤ x) (hhi : x < 2147483648) :
    (x ≠ -2147483648 → SerialMotor.absNormalize x = |x| ∧ 0 ≤ SerialMotor.absNormalize x)
    ∧ (x = -2147483648 → SerialMotor.absNormalize x = -2147483648) := by
  constructor
  · intro hne
    by_cases hneg : x < 0
    · have h1 : SerialMotor.toUInt32 x = (x + 4294967296).toNat := by
        unfold SerialMotor.toUInt32
        congr 1
        omega
      have h2 : (4294967296 - (x + 4294967296).toNat) % 4294967296 = (-x).toNat := by
        omega
      have h3 : SerialMotor.absNormalize x = SerialMotor.toInt32 (-x).toNat := by
        simp [SerialMotor.absNormalize, hneg, SerialMotor.negWrap32, h1, h2]
      have h4 : SerialMotor.toInt32 (-x).toNat = -x := by
        unfold SerialMotor.toInt32
        rw [if_pos (by omega)]
        omega
      rw [h3, h4, abs_of_neg hneg]
      exact ⟨rfl, by omega⟩
    · have habs : SerialMotor.absNormalize x = x := by
        simp [SerialMotor.absNormalize, hneg]
      rw [habs, abs_of_nonneg (by omega)]
      exact ⟨rfl, by omega⟩
  · intro hx
    subst hx
    decide

/-- Witness for the amended C9 at x = -5 and at the most negative int32. -/
theorem C9_abs_decode_amended_witness :
    SerialMotor.absNormalize (-5) = 5
    ∧ SerialMotor.absNormalize (-2147483648) = -2147483648 := by
  constructor
  · have h := (C9_abs_decode_amended (-5) (by decide) (by decide)).1 (by decide)
    simpa using h.1
  · exact (C9_abs_decode_amended (-2147483648) (by decide) (by decide)).2 rfl

namespace SerialMotor

/-- The AVR unsigned long modulus. -/
def M32 : ℕ := 4294967296

/-- The C expression (unsigned long)(a - b) on the AVR: 32-bit wraparound
subtraction. -/
def usub32 (a b : ℕ) : ℕ := (a % M32 + (M32 - b % M32)) % M32

/-- The rollover-safe comparison idiom (long)(a - b) used by the sketches:
wraparound difference re-read as a signed 32-bit value. -/
def sdiff (a b : ℕ) : ℤ := toInt32 (usub32 a b)

/-- Fields of the DM542 driver object shared by both sketches
(serialMotor_pmw.ino lines 114 to 134, serialMotor.ino second unit lines
180 to 201): the pin numbers and polarities play no role in update() and
are omitted. -/
structure DM542 where
  stepIntervalUs : ℕ
  lastStepTime : ℕ
  stopTime : ℕ
  running : Bool
  pulseMode : Bool
  targetPulses : ℕ
  pulseCounter : ℕ
deriving DecidableEq

/-- Embedding of DM542::update from serialMotor_pmw.ino (lines 176 to 205).
In time mode (BF) the timer backend is stopped and running cleared once
stopTime is reached.  In pulse mode (AF) a software step is emitted when
the interval has elapsed, the counter incremented, and running cleared
exactly when the counter reaches targetPulses; stopTime is never read. -/
def DM542.update (now : ℕ) (s : DM542) : DM542 :=
  if ¬s.running then s
  else if ¬s.pulseMode then
    if 0 ≤ sdiff now s.stopTime then { s with running := false } else s
  else if toInt32 s.stepIntervalUs ≤ sdiff now s.lastStepTime then
    let c := (s.pulseCounter + 1) % M32
    { s with lastStepTime := now, pulseCounter := c,
             running := decide (c < s.targetPulses) }
  else s

/-- Embedding of DM542::update from the second unit of serialMotor.ino
(lines 256 to 287): same structure, except that the step branch is shared
between modes and the counter logic is guarded by pulseMode inside it. -/
def DM542.update2 (now : ℕ) (s : DM542) : DM542 :=
  if ¬s.running then s
  else if ¬s.pulseMode ∧ 0 ≤ sdiff now s.stopTime then { s with running := false }
  else if toInt32 s.stepIntervalUs ≤ sdiff now s.lastStepTime then
    if s.pulseMode then
      let c := (s.pulseCounter + 1) % M32
      { s with lastStepTime := now, pulseCounter := c,
               running := decide (c < s.targetPulses) }
    else { s with lastStepTime := now }
  else s

end SerialMotor

/-- Claim C10.  In both Arduino sketches a step-bounded (0xAF) command is
never terminated by elapsed time: with pulseMode set, update() is fully
independent of stopTime (replacing stopTime by any value commutes with
update), and it clears running exactly when a step is due and the
incremented pulseCounter reaches targetPulses.  A step-bounded motion at a
very low speed therefore runs however long it takes to emit targetPulses
steps. -/
theorem C10_pulse_mode_ignores_stoptime (s : SerialMotor.DM542) (now t : ℕ)
    (hp : s.pulseMode = true) :
    (SerialMotor.DM542.update now { s with stopTime := t }
      = { SerialMotor.DM542.update now s with stopTime := t })
    ∧ (SerialMotor.DM542.update2 now { s with stopTime := t }
      = { SerialMotor.DM542.update2 now s with stopTime := t })
    ∧ (s.running = true →
      ((SerialMotor.DM542.update now s).running = false
        ↔ (SerialMotor.toInt32 s.stepIntervalUs
            ≤ SerialMotor.sdiff now s.lastStepTime
          ∧ s.targetPulses ≤ (s.pulseCounter + 1) % SerialMotor.M32)))
    ∧ (s.running = true →
      ((SerialMotor.DM542.update2 now s).running = false
        ↔ (SerialMotor.toInt32 s.stepIntervalUs
            ≤ SerialMotor.sdiff now s.lastStepTime
          ∧ s.targetPulses ≤ (s.pulseCounter + 1) % SerialMotor.M32))) := by
  refine ⟨?_, ?_, ?_, ?_⟩
  · by_cases hr : s.running <;>
      by_cases hd : SerialMotor.toInt32 s.stepIntervalUs
          ≤ SerialMotor.sdiff now s.lastStepTime <;>
        simp [SerialMotor.DM542.update, hp, hr, hd]
  · by_cases hr : s.running <;>
      by_cases hd : SerialMotor.toInt32 s.stepIntervalUs
          ≤ SerialMotor.sdiff now s.lastStepTime <;>
        simp [SerialMotor.DM542.update2, hp, hr, hd]
  · intro hr
    by_cases hd : SerialMotor.toInt32 s.stepIntervalUs
        ≤ SerialMotor.sdiff now s.lastStepTime <;>
      simp [SerialMotor.DM542.update, hp, hr, hd]
  · intro hr
    by_cases hd : SerialMotor.toInt32 s.stepIntervalUs
        ≤ SerialMotor.sdiff now s.lastStepTime <;>
      simp [SerialMotor.DM542.update2, hp, hr, hd]

/-- Witness for C10 on a pulse-mode motor with one step to go: changing
stopTime from 0 to 7 does not affect update, and running clears when the
due step reaches the target. -/
theorem C10_pulse_mode_ignores_stoptime_witness :
    (SerialMotor.DM542.update 5000
        { stepIntervalUs := 1000, lastStepTime := 0, stopTime := 7,
          running := true, pulseMode := true, targetPulses := 1, pulseCounter := 0 }
      = { SerialMotor.DM542.update 5000
            { stepIntervalUs := 1000, lastStepTime := 0, stopTime := 0,
              running := true, pulseMode := true, targetPulses := 1,
              pulseCounter := 0 } with stopTime := 7 })
    ∧ ((SerialMotor.DM542.update 5000
        { stepIntervalUs := 1000, lastStepTime := 0, stopTime := 0,
          running := true, pulseMode := true, targetPulses := 1,
          pulseCounter := 0 }).running = false) := by
  have h := C10_pulse_mode_ignores_stoptime
    { stepIntervalUs := 1000, lastStepTime := 0, stopTime := 0,
      running := true, pulseMode := true, targetPulses := 1, pulseCounter := 0 }
    5000 7 rfl
  refine ⟨h.1, (h.2.2.1 rfl).mpr ⟨by decide, by decide⟩⟩

namespace CE

/-- PROFILE_SEGMENTS from src/unnamed/part_003: S-curve segments per
ramp side. -/
def PROFILE_SEGMENTS : ℕ := 32

/-- pio_cmd_t: one motor_exec FIFO command pair (delay_count, steps). -/
structure PioCmd where
  delay : ℕ
  steps : ℕ
deriving DecidableEq

/-- Modelled from the spec: speed_hz_to_delay is declared in the PIO
timing header bundled with src/unnamed/part_003 but its implementation is
not among the sources.  Spec section 4.1 with the pico constant K = 7 and
f_sys = 125 MHz: round((f_sys/hz - K)/2) clamped to at least 1 for valid
speed; 0 is reserved for the end marker and, per the header comment, never
returned for a valid speed. -/
def speed_hz_to_delay (hz : ℕ) : ℕ :=
  if hz = 0 then 0
  else max 1 (PioExec.llround ((125000000 / (hz : ℚ) - 7) / 2)).toNat

/-- The bell-shape template value g(u) = 6 u (1 - u) at the midpoint
u = (i + 1/2) / M of segment i (part_003 lines 70 to 75). -/
def weight (M i : ℕ) : ℚ :=
  6 * (((i : ℚ) + 1 / 2) / M) * (1 - ((i : ℚ) + 1 / 2) / M)

/-- The weight template w[0 .. M-1]. -/
def weights (M : ℕ) : List ℚ := (List.range M).map (weight M)

/-- The exact (real-valued) share of the ramp steps of each segment:
(w[i] / weight_sum) * Sr (part_003 line 95). -/
def exacts (Sr M : ℕ) : List ℚ :=
  (weights M).map (fun wi => wi / (weights M).sum * Sr)

/-- The floored integer allocation steps_acc[i] before remainder
redistribution (part_003 lines 96 to 99). -/
def floorsOf (Sr M : ℕ) : List ℕ :=
  (exacts Sr M).map (fun e => (⌊e⌋).toNat)

/-- The fractional remainders rem[i] in micro-units, as the C cast
(uint32_t)((exact - s) * 1e6f) truncates (part_003 line 98). -/
def remsOf (Sr M : ℕ) : List ℕ :=
  (exacts Sr M).map (fun e => (⌊(e - (⌊e⌋ : ℚ)) * 1000000⌋).toNat)

/-- The inner argmax scan of the redistribution loop (part_003 lines 104
to 107): best starts at 0 and moves only on a strictly larger remainder,
so it lands on the first index attaining the maximum.  Starting the fold
at index 0 is equivalent to the C loop starting at 1 because the first
comparison of an element with itself never moves best. -/
def argmax (l : List ℕ) : ℕ :=
  (List.range l.length).foldl
    (fun best i => if l.getD best 0 < l.getD i 0 then i else best) 0

/-- The largest-remainder redistribution loop (part_003 lines 103 to 111)
as a fueled recursion: the C loop `while (steps_accum < Sr)` adds exactly
one step per iteration, so it runs exactly Sr - steps_accum times (its
termination measure); each iteration bumps the segment with the largest
remainder and zeroes that remainder. -/
def redistribute : ℕ → List ℕ → List ℕ → List ℕ × List ℕ
  | 0, steps, rems => (steps, rems)
  | fuel + 1, steps, rems =>
      redistribute fuel
        (steps.set (argmax rems) (steps.getD (argmax rems) 0 + 1))
        (rems.set (argmax rems) 0)

/-- The final integer allocation steps_acc after redistribution. -/
def stepsAcc (Sr M : ℕ) : List ℕ :=
  (redistribute (Sr - (floorsOf Sr M).sum) (floorsOf Sr M) (remsOf Sr M)).1

/-- One ramp emission pass (part_003 lines 117 to 126 ascending, lines
136 to 145 descending over the reversed lists): segments with zero steps
are skipped, the per-segment speed is lroundf(v_max * alpha * w[i])
clamped to at least 1, converted to a delay. -/
def emitRamp (vmax : ℕ) (alpha : ℚ) (w : List ℚ) (sa : List ℕ) : List PioCmd :=
  (w.zip sa).filterMap (fun p =>
    if p.2 = 0 then none
    else some
      ⟨speed_hz_to_delay (max 1 (PioExec.llround ((vmax : ℚ) * alpha * p.1)).toNat),
        p.2⟩)

/-- Embedding of ce_config_to_pio (part_003 lines 29 to 152).  Guard
against zero inputs; short-stroke selection Sr = total/2 with no cruise
when ramp is 0 or total at most 2*ramp; M = min(32, Sr); NULL when the
weight sum is not positive (only possible for M = 0); peak scaling alpha;
floored allocation plus largest-remainder redistribution; emission of
acceleration, optional cruise, deceleration (the same template walked
backwards) and the (0,0) end marker.  The C float arithmetic is embedded
exactly over the rationals. -/
def ce_config_to_pio (vmax total ramp : ℕ) : Option (List PioCmd) :=
  if vmax = 0 ∨ total = 0 then none
  else
    let Sr := if ramp = 0 ∨ total ≤ 2 * ramp then total / 2 else ramp
    let M := min PROFILE_SEGMENTS Sr
    if (weights M).sum ≤ 0 then none
    else
      let alpha : ℚ :=
        if (ramp = 0 ∨ total ≤ 2 * ramp) ∧ 0 < ramp then min 1 ((Sr : ℚ) / ramp)
        else 1
      let sa := stepsAcc Sr M
      let acc := emitRamp vmax alpha (weights M) sa
      let cruise :=
        if ¬(ramp = 0 ∨ total ≤ 2 * ramp) ∧ 0 < total - 2 * Sr then
          [⟨speed_hz_to_delay vmax, total - 2 * Sr⟩]
        else []
      let dec := emitRamp vmax alpha (weights M).reverse sa.reverse
      some (acc ++ cruise ++ dec ++ [⟨0, 0⟩])

end CE

namespace CE

lemma weight_pos (M i : ℕ) (h : i < M) : 0 < weight M i := by
  have hM : (0 : ℚ) < M := by
    have h0 : 0 < M := by omega
    exact_mod_cast h0
  have hx : (0 : ℚ) < (i : ℚ) + 1 / 2 := by positivity
  have hi1 : ((i : ℚ) + 1) ≤ M := by exact_mod_cast h
  have hu1 : ((i : ℚ) + 1 / 2) / M < 1 := by
    rw [div_lt_one hM]
    linarith
  have hu0 : 0 < ((i : ℚ) + 1 / 2) / M := div_pos hx hM
  unfold weight
  nlinarith

lemma weights_length (M : ℕ) : (weights M).length = M := by
  simp [weights]

lemma weights_mem_pos (M : ℕ) (x : ℚ) (hx : x ∈ weights M) : 0 < x := by
  simp only [weights, List.mem_map, List.mem_range] at hx
  obtain ⟨i, hi, rfl⟩ := hx
  exact weight_pos M i hi

lemma weights_sum_pos (M : ℕ) (hM : 0 < M) : 0 < (weights M).sum := by
  refine List.sum_pos _ (weights_mem_pos M) ?_
  intro h
  have hl := weights_length M
  rw [h] at hl
  simp at hl
  omega

lemma sum_map_mul_const (l : List ℚ) (c : ℚ) :
    (l.map (fun x => x * c)).sum = l.sum * c := by
  induction l with
  | nil => simp
  | cons x xs ih => simp [ih, add_mul]

lemma exacts_sum (Sr M : ℕ) (hM : 0 < M) : (exacts Sr M).sum = Sr := by
  have hW : (weights M).sum ≠ 0 := ne_of_gt (weights_sum_pos M hM)
  have hfun : (fun wi : ℚ => wi / (weights M).sum * (Sr : ℚ))
      = fun wi : ℚ => wi * ((Sr : ℚ) / (weights M).sum) := by
    funext wi
    field_simp
  unfold exacts
  rw [hfun, sum_map_mul_const]
  field_simp

lemma exacts_nonneg (Sr M : ℕ) (hM : 0 < M) :
    ∀ x ∈ exacts Sr M, 0 ≤ x := by
  intro x hx
  simp only [exacts, List.mem_map] at hx
  obtain ⟨wi, hwi, rfl⟩ := hx
  have h1 : 0 < wi := weights_mem_pos M wi hwi
  have h2 : 0 < (weights M).sum := weights_sum_pos M hM
  positivity

lemma castsum_floors_le (l : List ℚ) (h : ∀ x ∈ l, 0 ≤ x) :
    (((l.map (fun e => (⌊e⌋).toNat)).sum : ℕ) : ℚ) ≤ l.sum := by
  induction l with
  | nil => simp
  | cons x xs ih =>
      have hx : 0 ≤ x := h x (by simp)
      have hxs := ih (fun y hy => h y (by simp [hy]))
      have h0 : (0 : ℤ) ≤ ⌊x⌋ := Int.floor_nonneg.mpr hx
      have h1 : (((⌊x⌋).toNat : ℕ) : ℚ) = ((⌊x⌋ : ℤ) : ℚ) := by
        exact_mod_cast Int.toNat_of_nonneg h0
      have hfx : (((⌊x⌋).toNat : ℕ) : ℚ) ≤ x := by
        rw [h1]
        exact Int.floor_le x
      simp only [List.map_cons, List.sum_cons]
      push_cast
      push_cast at hfx hxs
      linarith

lemma floorsOf_length (Sr M : ℕ) : (floorsOf Sr M).length = M := by
  simp [floorsOf, exacts, weights]

lemma remsOf_length (Sr M : ℕ) : (remsOf Sr M).length = M := by
  simp [remsOf, exacts, weights]

lemma floors_sum_le (Sr M : ℕ) (hM : 0 < M) : (floorsOf Sr M).sum ≤ Sr := by
  have h1 := castsum_floors_le (exacts Sr M) (exacts_nonneg Sr M hM)
  rw [exacts_sum Sr M hM] at h1
  exact_mod_cast h1

lemma argmax_lt_length (l : List ℕ) (h : l ≠ []) : argmax l < l.length := by
  have hlen : 0 < l.length := List.length_pos.mpr h
  unfold argmax
  have hgen : ∀ (idxs : List ℕ) (b : ℕ), b < l.length → (∀ i ∈ idxs, i < l.length) →
      (idxs.foldl (fun best i => if l.getD best 0 < l.getD i 0 then i else best) b)
        < l.length := by
    intro idxs
    induction idxs with
    | nil => intro b hb _; simpa using hb
    | cons j js ih =>
        intro b hb hmem
        simp only [List.foldl_cons]
        by_cases hc : l.getD b 0 < l.getD j 0
        · simp only [if_pos hc]
          exact ih j (hmem j (by simp)) (fun i hi => hmem i (by simp [hi]))
        · simp only [if_neg hc]
          exact ih b hb (fun i hi => hmem i (by simp [hi]))
  exact hgen (List.range l.length) 0 hlen (fun i hi => List.mem_range.mp hi)

lemma sum_set_bump (l : List ℕ) (i : ℕ) (h : i < l.length) :
    (l.set i (l.getD i 0 + 1)).sum = l.sum + 1 := by
  induction l generalizing i with
  | nil => simp at h
  | cons x xs ih =>
      cases i with
      | zero =>
          simp [List.getD]
          omega
      | succ n =>
          simp only [List.length_cons] at h
          simp only [List.set_cons_succ, List.sum_cons, List.getD_cons_succ,
            ih n (by omega)]
          omega

lemma redistribute_fst_length (fuel : ℕ) (st rm : List ℕ) :
    (redistribute fuel st rm).1.length = st.length := by
  induction fuel generalizing st rm with
  | zero => simp [redistribute]
  | succ f ih => simp [redistribute, ih, List.length_set]

lemma redistribute_fst_sum (fuel : ℕ) (st rm : List ℕ)
    (hne : rm ≠ []) (hlen : st.length = rm.length) :
    (redistribute fuel st rm).1.sum = st.sum + fuel := by
  induction fuel generalizing st rm with
  | zero => simp [redistribute]
  | succ f ih =>
      have hb : argmax rm < rm.length := argmax_lt_length rm hne
      have hb2 : argmax rm < st.length := by omega
      have hne2 : rm.set (argmax rm) 0 ≠ [] := by
        intro hemp
        have hlen0 := congrArg List.length hemp
        simp only [List.length_set, List.length_nil] at hlen0
        omega
      have hlen2 : (st.set (argmax rm) (st.getD (argmax rm) 0 + 1)).length
          = (rm.set (argmax rm) 0).length := by
        simp only [List.length_set]
        omega
      simp only [redistribute]
      rw [ih _ _ hne2 hlen2, sum_set_bump st (argmax rm) hb2]
      omega

lemma stepsAcc_length (Sr M : ℕ) : (stepsAcc Sr M).length = M := by
  unfold stepsAcc
  rw [redistribute_fst_length, floorsOf_length]

lemma stepsAcc_sum (Sr M : ℕ) (hM : 0 < M) : (stepsAcc Sr M).sum = Sr := by
  have hne : remsOf Sr M ≠ [] := by
    intro hemp
    have hlen0 := congrArg List.length hemp
    rw [remsOf_length] at hlen0
    simp at hlen0
    omega
  have hlen : (floorsOf Sr M).length = (remsOf Sr M).length := by
    rw [floorsOf_length, remsOf_length]
  unfold stepsAcc
  rw [redistribute_fst_sum _ _ _ hne hlen]
  have hle := floors_sum_le Sr M hM
  omega

lemma emitRamp_steps_sum (v : ℕ) (a : ℚ) (w : List ℚ) (sa : List ℕ)
    (h : w.length = sa.length) :
    ((emitRamp v a w sa).map PioCmd.steps).sum = sa.sum := by
  induction w generalizing sa with
  | nil =>
      cases sa with
      | nil => simp [emitRamp]
      | cons y ys => simp at h
  | cons x xs ih =>
      cases sa with
      | nil => simp at h
      | cons y ys =>
          simp only [List.length_cons] at h
          have hrec := ih ys (by omega)
          by_cases hy : y = 0
          · subst hy
            simp only [emitRamp, List.zip_cons_cons, List.filterMap_cons, if_pos rfl]
            simp only [emitRamp] at hrec
            simp [hrec]
          · simp only [emitRamp, List.zip_cons_cons, List.filterMap_cons, if_neg hy]
            simp only [emitRamp] at hrec
            simp [hrec]

lemma zip_reverse_eq (w : List ℚ) (sa : List ℕ) (h : w.length = sa.length) :
    w.reverse.zip sa.reverse = (w.zip sa).reverse := by
  induction w generalizing sa with
  | nil => simp
  | cons x xs ih =>
      cases sa with
      | nil => simp at h
      | cons y ys =>
          simp only [List.length_cons] at h
          have hlen : xs.reverse.length = ys.reverse.length := by
            simp
            omega
          simp only [List.reverse_cons, List.zip_append hlen, ih ys (by omega),
            List.zip_cons_cons, List.zip_nil_right]

lemma emitRamp_reverse (v : ℕ) (a : ℚ) (w : List ℚ) (sa : List ℕ)
    (h : w.length = sa.length) :
    emitRamp v a w.reverse sa.reverse = (emitRamp v a w sa).reverse := by
  unfold emitRamp
  rw [zip_reverse_eq w sa h, List.filterMap_reverse]

lemma ce_none_of_small (v total ramp : ℕ) (hv : v ≠ 0) (ht : total ≠ 0)
    (hshort : ramp = 0 ∨ total ≤ 2 * ramp) (h0 : total / 2 = 0) :
    ce_config_to_pio v total ramp = none := by
  unfold ce_config_to_pio
  rw [if_neg (by simp [hv, ht])]
  simp only [if_pos hshort, h0]
  rw [if_pos]
  simp [weights, PROFILE_SEGMENTS]

lemma ce_shape (v total ramp : ℕ) (hv : v ≠ 0) (ht : total ≠ 0)
    (hpos : 0 < (if ramp = 0 ∨ total ≤ 2 * ramp then total / 2 else ramp)) :
    ∃ acc : List PioCmd,
      ce_config_to_pio v total ramp
        = some (acc
            ++ (if ramp = 0 ∨ total ≤ 2 * ramp then ([] : List PioCmd)
                else [⟨speed_hz_to_delay v,
                  total - 2 * (if ramp = 0 ∨ total ≤ 2 * ramp then total / 2 else ramp)⟩])
            ++ acc.reverse ++ [⟨0, 0⟩])
      ∧ (acc.map PioCmd.steps).sum
        = (if ramp = 0 ∨ total ≤ 2 * ramp then total / 2 else ramp) := by
  by_cases hshort : ramp = 0 ∨ total ≤ 2 * ramp
  · rw [if_pos hshort] at hpos
    have hM : 0 < min PROFILE_SEGMENTS (total / 2) := by
      simp only [PROFILE_SEGMENTS]
      omega
    have hlen : (weights (min PROFILE_SEGMENTS (total / 2))).length
        = (stepsAcc (total / 2) (min PROFILE_SEGMENTS (total / 2))).length := by
      rw [weights_length, stepsAcc_length]
    refine ⟨emitRamp v
      (if (ramp = 0 ∨ total ≤ 2 * ramp) ∧ 0 < ramp
        then min 1 (((total / 2 : ℕ) : ℚ) / (ramp : ℚ)) else 1)
      (weights (min PROFILE_SEGMENTS (total / 2)))
      (stepsAcc (total / 2) (min PROFILE_SEGMENTS (total / 2))), ?_, ?_⟩
    · unfold ce_config_to_pio
      rw [if_neg (by simp [hv, ht])]
      simp only [if_pos hshort]
      rw [if_neg (not_le.mpr (weights_sum_pos _ hM))]
      rw [emitRamp_reverse _ _ _ _ hlen]
      simp [hshort]
    · rw [emitRamp_steps_sum _ _ _ _ hlen, stepsAcc_sum _ _ hM, if_pos hshort]
  · rw [if_neg hshort] at hpos
    have hcr : 0 < total - 2 * ramp := by
      push_neg at hshort
      omega
    have hM : 0 < min PROFILE_SEGMENTS ramp := by
      simp only [PROFILE_SEGMENTS]
      omega
    have hlen : (weights (min PROFILE_SEGMENTS ramp)).length
        = (stepsAcc ramp (min PROFILE_SEGMENTS ramp)).length := by
      rw [weights_length, stepsAcc_length]
    refine ⟨emitRamp v
      (if (ramp = 0 ∨ total ≤ 2 * ramp) ∧ 0 < ramp
        then min 1 ((ramp : ℚ) / (ramp : ℚ)) else 1)
      (weights (min PROFILE_SEGMENTS ramp))
      (stepsAcc ramp (min PROFILE_SEGMENTS ramp)), ?_, ?_⟩
    · unfold ce_config_to_pio
      rw [if_neg (by simp [hv, ht])]
      simp only [if_neg hshort]
      rw [if_neg (not_le.mpr (weights_sum_pos _ hM))]
      rw [emitRamp_reverse _ _ _ _ hlen]
      simp [hshort, hcr]
    · rw [emitRamp_steps_sum _ _ _ _ hlen, stepsAcc_sum _ _ hM, if_neg hshort]

end CE



/-- Counterexample to claim C8.  For v_max = 100, total_steps = 5,
ramp_steps_per_side = 10 the short-stroke rule sets Sr = 5 / 2 = 2, so the
emitted step counts sum to 4, not to total_steps = 5; and for
total_steps = 1 (Sr = 0, hence M = 0 and weight_sum = 0) the function
returns NULL instead of a sequence. -/
theorem C8_scurve_counterexample :
    (CE.ce_config_to_pio 100 5 10).map (fun l => (l.map CE.PioCmd.steps).sum)
      = some 4
    ∧ CE.ce_config_to_pio 100 1 10 = none := by
  constructor
  · obtain ⟨acc, hce, hsum⟩ :=
      CE.ce_shape 100 5 10 (by decide) (by decide) (by decide)
    rw [hce]
    have hsum2 : (acc.map CE.PioCmd.steps).sum = 2 := by simpa using hsum
    have hcond : (100 : ℕ) ≠ 0 ∨ True := by decide
    simp [hsum2, List.sum_reverse,
      show (10 : ℕ) = 0 ∨ (5 : ℕ) ≤ 2 * 10 from by decide]
  · exact CE.ce_none_of_small 100 1 10 (by decide) (by decide)
      (by decide) (by decide)

/-- Claim C8 as amended.  For every v_max at least 1 and total_steps at
least 1 the emitter returns a sequence ending in the (0, 0) marker whose
deceleration is the acceleration reversed; the acceleration step counts
sum to Sr, and the whole sequence sums to total_steps in the cruise case
but to 2 * (total_steps / 2) in the short-stroke case (total_steps - 1
when total_steps is odd); and when the short-stroke ramp total_steps / 2
is 0 (total_steps = 1) it returns NULL instead of a sequence. -/
theorem C8_scurve_amended (v total ramp : ℕ) (hv : 1 ≤ v) (ht : 1 ≤ total) :
    ((ramp = 0 ∨ total ≤ 2 * ramp) → total / 2 = 0 →
      CE.ce_config_to_pio v total ramp = none)
    ∧ ((ramp = 0 ∨ total ≤ 2 * ramp) → 1 ≤ total / 2 →
      ∃ acc : List CE.PioCmd,
        CE.ce_config_to_pio v total ramp
          = some (acc ++ acc.reverse ++ [CE.PioCmd.mk 0 0])
        ∧ (acc.map CE.PioCmd.steps).sum = total / 2
        ∧ ((acc ++ acc.reverse ++ [CE.PioCmd.mk 0 0]).map CE.PioCmd.steps).sum
          = 2 * (total / 2))
    ∧ (¬(ramp = 0 ∨ total ≤ 2 * ramp) →
      ∃ acc : List CE.PioCmd,
        CE.ce_config_to_pio v total ramp
          = some (acc ++ [CE.PioCmd.mk (CE.speed_hz_to_delay v) (total - 2 * ramp)]
              ++ acc.reverse ++ [CE.PioCmd.mk 0 0])
        ∧ (acc.map CE.PioCmd.steps).sum = ramp
        ∧ ((acc ++ [CE.PioCmd.mk (CE.speed_hz_to_delay v) (total - 2 * ramp)]
            ++ acc.reverse ++ [CE.PioCmd.mk 0 0]).map CE.PioCmd.steps).sum
          = total) := by
  refine ⟨?_, ?_, ?_⟩
  · intro hs h0
    exact CE.ce_none_of_small v total ramp (by omega) (by omega) hs h0
  · intro hs h2
    obtain ⟨acc, hce, hsum⟩ := CE.ce_shape v total ramp (by omega) (by omega)
      (by rw [if_pos hs]; omega)
    simp only [if_pos hs] at hce hsum
    refine ⟨acc, by simpa using hce, hsum, ?_⟩
    simp [hsum, List.sum_reverse]
    omega
  · intro hs
    have hs2 : 2 * ramp < total := by
      push_neg at hs
      omega
    obtain ⟨acc, hce, hsum⟩ := CE.ce_shape v total ramp (by omega) (by omega)
      (by rw [if_neg hs]; push_neg at hs; omega)
    simp only [if_neg hs] at hce hsum
    refine ⟨acc, hce, hsum, ?_⟩
    simp [hsum, List.sum_reverse]
    omega

/-- Witness for the amended C8: at total_steps 1 the emitter returns NULL,
and at v_max 100, total 20, ramp 3 it returns a sequence. -/
theorem C8_scurve_amended_witness :
    CE.ce_config_to_pio 100 1 10 = none
    ∧ CE.ce_config_to_pio 100 20 3 ≠ none := by
  constructor
  · exact (C8_scurve_amended 100 1 10 (by decide) (by decide)).1
      (by decide) (by decide)
  · obtain ⟨acc, hce, -, -⟩ :=
      (C8_scurve_amended 100 20 3 (by decide) (by decide)).2.2 (by decide)
    rw [hce]
    simp
